import Mathlib

/-!
Verification of the clustering engine of the `clustering-based-ids` repository
(files `src/datas.py` and `src/kmean.py`) against its specification.

The Python code is shallowly embedded: coordinates are exact rationals (the
code uses Python floats; all the properties checked here are about the
algorithm's arithmetic, stated over ℚ/ℝ), Euclidean distance is the real
square root of the rational sum of squared coordinate differences, mutable
object state is explicit state passing, and the unbounded `while` loop of
`Kmean._turn` is a fuel-indexed recursion together with a theorem showing a
fuel bound computed from the input always suffices.
-/

/-- A point of the 2D plane, as manipulated by `datas.Point` / `datas.Center`
(an index only tags points for printing and never enters the algorithm, so it
is dropped). -/
abbrev Vec2 : Type := ℚ × ℚ

/-- A point of 3D space, as manipulated by `datas.Point3D` / `datas.Center3D`. -/
abbrev Vec3 : Type := ℚ × ℚ × ℚ

/-- Squared Euclidean distance between two 2D points.  `Point.dist` computes
`linalg.norm(vect1 - vect2, 2, 0)`, the Euclidean norm of the coordinate
difference, i.e. the square root of this quantity. -/
def sqDist (a b : Vec2) : ℚ := (a.1 - b.1) ^ 2 + (a.2 - b.2) ^ 2

/-- `datas.Point.dist`: Euclidean distance between two 2D points. -/
noncomputable def pdist (a b : Vec2) : ℝ := Real.sqrt ((sqDist a b : ℚ) : ℝ)

/-- Squared Euclidean distance between 3D points (`datas.Point3D.dist` before
the square root). -/
def sqDist3 (a b : Vec3) : ℚ :=
  (a.1 - b.1) ^ 2 + (a.2.1 - b.2.1) ^ 2 + (a.2.2 - b.2.2) ^ 2

/-- `datas.Point3D.dist`: `sqrt(sum([(x-x')**2, (y-y')**2, (z-z')**2]))`. -/
noncomputable def pdist3 (a b : Vec3) : ℝ := Real.sqrt ((sqDist3 a b : ℚ) : ℝ)

/-! ### The dynamic point model of `datas.py` (claim C6)

`Point.dist` builds the 2-vectors `[self.x, self.y]` and `[p.x, p.y]` and
takes their Euclidean norm: it reads only the `x` and `y` attributes of its
argument, which exist on `Point3D` as well, so it succeeds on any point.
`Point3D.dist` additionally reads `p.z`, which does not exist on a 2D
`Point`: that lookup raises `AttributeError`.  There is no dimension check of
any kind in `datas.py`. -/

/-- A Python point object: either a 2D `Point` (or `Center`) or a 3D
`Point3D` (or `Center3D`). -/
inductive PyPoint : Type
  | p2 (x y : ℚ)
  | p3 (x y z : ℚ)
deriving DecidableEq

/-- Attribute `x`, present on every point. -/
def PyPoint.px : PyPoint → ℚ
  | .p2 x _ => x
  | .p3 x _ _ => x

/-- Attribute `y`, present on every point. -/
def PyPoint.py : PyPoint → ℚ
  | .p2 _ y => y
  | .p3 _ y _ => y

/-- Attribute `z`: present only on 3D points; `none` models the
`AttributeError` a 2D point raises when `z` is read. -/
def PyPoint.pz : PyPoint → Option ℚ
  | .p2 _ _ => none
  | .p3 _ _ z => some z

/-- `datas.Point.dist`, as dispatched on a 2D receiver: it uses only the `x`
and `y` attributes of both points, so it always returns a number. -/
noncomputable def pointDistOf2D (a b : PyPoint) : ℝ :=
  pdist (a.px, a.py) (b.px, b.py)

/-- `datas.Point3D.dist`, as dispatched on a 3D receiver: it reads `p.z`, so
it fails (`AttributeError`) when the argument has no `z`. -/
noncomputable def pointDistOf3D (a b : PyPoint) : Option ℝ :=
  match a.pz, b.pz with
  | some az, some bz => some (pdist3 (a.px, a.py, az) (b.px, b.py, bz))
  | _, _ => none

/-- Dynamic dispatch of `dist`: the receiver's class picks the method.
`none` models an exception escaping the call. -/
noncomputable def pyDist (a b : PyPoint) : Option ℝ :=
  match a with
  | .p2 _ _ => some (pointDistOf2D a b)
  | .p3 _ _ _ => pointDistOf3D a b

/-! ### `Kmean._update_cluster_center` (claim C4)

The code iterates over the member points of a cluster accumulating `x_sum`
and `y_sum`, and when the cluster is non-empty overwrites the center's `x`
and `y` with `x_sum / nb_points` and `y_sum / nb_points`.  Only the `x` and
`y` components are ever touched (the comment `# Update the way of getting
sums and centers for 3D points` marks 3D support as not implemented), so a
hypothetical 3D member list would keep the center's stale `z`. -/

/-- The accumulation loop `for point in cluster.points: x_sum += point.x;
y_sum += point.y` of `Kmean._update_cluster_center`. -/
def sumXY (l : List Vec2) : Vec2 :=
  l.foldl (fun s q => (s.1 + q.1, s.2 + q.2)) (0, 0)

/-- `Kmean._update_cluster_center` on one cluster: `members` is the cluster's
member-point list and `c` its current center; a cluster with no members keeps
its center. -/
def updateCenter (members : List Vec2) (c : Vec2) : Vec2 :=
  if 0 < members.length then
    ((sumXY members).1 / members.length, (sumXY members).2 / members.length)
  else c

/-- The same center-update loop run on 3D points: the code reads `point.x`
and `point.y` and assigns `cluster.center.x` / `cluster.center.y`; the `z`
component of the center is never written. -/
def updateCenter3D (members : List Vec3) (c : Vec3) : Vec3 :=
  if 0 < members.length then
    (((members.map fun p => (p.1, p.2.1)).foldl (fun s q => (s.1 + q.1, s.2 + q.2)) (0, 0)).1
        / members.length,
      ((members.map fun p => (p.1, p.2.1)).foldl (fun s q => (s.1 + q.1, s.2 + q.2)) (0, 0)).2
        / members.length,
      c.2.2)
  else c

/-! ### `Kmean.__init__` validation (claim C5)

`Kmean.__init__` raises `TypeError` when the dataset is not a non-empty
`DataFrame`, and `ValueError` (the spec's `InvalidClusterCount`) when
`k > dataset.size`.  For a pandas `DataFrame`, `.size` is the number of
cells, `rows * columns` (the CSV datasets have an index column plus two
coordinate columns, hence `size = 3 * rows`), while `dataframe_to_points`
creates one `Point` per row.  No lower bound on `k` is checked here: `k < 1`
is rejected only by the command-line parser `__get_params`, not by the
constructor. -/

/-- Outcome classes of `Kmean.__init__`. -/
inductive KmeanErr : Type
  | emptyData   -- `TypeError`: dataset not a non-empty DataFrame
  | badK        -- `ValueError`: `k cannot be superior than dataset size`
deriving DecidableEq

/-- The validation performed by `Kmean.__init__` for a DataFrame with
`nRows` rows and `nCols` columns; on success the per-point neighbour counter
is initialised to zero for each of the `nRows` points. -/
def kmeanInit (nRows nCols k : ℕ) : Except KmeanErr (List ℕ) :=
  if nRows * nCols = 0 then .error .emptyData
  else if nRows * nCols < k then .error .badK
  else .ok (List.replicate nRows 0)

/-! ### Object-level cluster state (`datas.Cluster` / `Cluster.assign`, claim C2)

`Cluster` owns a Python list `points` of member points; each `Point` carries a
nullable back-reference `cluster`.  `Cluster.assign(point)` first removes the
point from its prior cluster's list (`point.cluster.points.remove(point)`,
which deletes the first occurrence), then sets the back-reference and appends
the point to this cluster's list.  The state of one run is modelled
positionally: `clusters` is the list of member lists (index = position of the
cluster in `Kmean._clusters`) and `ptCluster` maps each point to the index of
the cluster its back-reference points to, if any. -/

structure ObjState (n : ℕ) where
  clusters : List (List (Fin n))
  ptCluster : Fin n → Option ℕ

/-- Apply `f` to the element at position `i` of a list (no-op out of range). -/
def listModifyAt {α : Type} (f : α → α) : ℕ → List α → List α
  | _, [] => []
  | 0, x :: xs => f x :: xs
  | i + 1, x :: xs => x :: listModifyAt f i xs

/-- The first half of `Cluster.assign`: `if point.cluster:
point.cluster.points.remove(point)` — remove the point from the member list
of its prior cluster, if it has one. -/
def removePrior {n : ℕ} (st : ObjState n) (p : Fin n) : List (List (Fin n)) :=
  match st.ptCluster p with
  | some c0 => listModifyAt (fun l => l.erase p) c0 st.clusters
  | none => st.clusters

/-- `datas.Cluster.assign`, for the cluster at position `c`: remove the point
from its prior owner's list, set the back-reference, append the point to this
cluster's list. -/
def clusterAssign {n : ℕ} (st : ObjState n) (c : ℕ) (p : Fin n) : ObjState n :=
  { clusters := listModifyAt (fun l => l ++ [p]) c (removePrior st p)
    ptCluster := fun q => if q = p then some c else st.ptCluster q }

/-- The membership invariant of claim C2: a back-reference always lands on an
existing cluster, and each point occurs in a cluster's member list exactly
once if that cluster is the one its back-reference designates, and not at all
otherwise (in particular at most one list contains it, with no duplicates). -/
def ObjInv {n : ℕ} (st : ObjState n) : Prop :=
  (∀ (p : Fin n) (c : ℕ), st.ptCluster p = some c → c < st.clusters.length) ∧
  (∀ (p : Fin n) (c : ℕ),
    (st.clusters.getD c []).count p = if st.ptCluster p = some c then 1 else 0)

/-- `Kmean._assign_point_to_closest_cluster` style initial full assignment:
assign every point, in dataset order, to the cluster `f` picks for it. -/
def assignAll {n : ℕ} (st : ObjState n) (f : Fin n → ℕ) : ObjState n :=
  (List.finRange n).foldl (fun s i => clusterAssign s (f i) i) st

/-! ### Functional model of the turn loop (`Kmean._turn`, claims C1, C3, C7)

During one pass of `_turn` the cluster centers are fixed; each point `p` is
compared, starting from its current cluster (`closest = p.cluster`,
`curr_dist = p.dist(closest.center)`), against every cluster in list order,
switching only on a strictly smaller distance, and is then reassigned via
`closest.assign(p)`.  Reassigning a point never changes any distance computed
for the other points (distances depend only on the centers), so a pass is the
pointwise map `passAssign` below.  After the pass
`_update_cluster_center` recomputes the centers; member-list order does not
affect it (it only sums the members), so the state of the loop is just the
assignment function together with the center of each cluster slot. -/

/-- State of the turn loop: which cluster (by position in `Kmean._clusters`)
each point belongs to, and each cluster's center. -/
structure KState (n k : ℕ) where
  assign : Fin n → Fin k
  centers : Fin k → Vec2

/-- The member list of cluster `j` (dataset order; the Python list's order —
insertion order — differs, but every use of the list is order-insensitive). -/
def clusterList {n k : ℕ} (A : Fin n → Fin k) (j : Fin k) : List (Fin n) :=
  (List.finRange n).filter (fun i => decide (A i = j))

/-- The member set of cluster `j`. -/
def clusterFiber {n k : ℕ} (A : Fin n → Fin k) (j : Fin k) : Finset (Fin n) :=
  Finset.univ.filter (fun i => A i = j)

/-- `Kmean._update_cluster_center` over all clusters: each cluster slot gets
`updateCenter` applied to its member points and current center. -/
def updateCenters {n k : ℕ} (pts : Fin n → Vec2) (A : Fin n → Fin k) (C : Fin k → Vec2) :
    Fin k → Vec2 :=
  fun j => updateCenter ((clusterList A j).map pts) (C j)

/-- The inner comparison loop of `_turn` for one point: start from the
point's current cluster `cur`, scan all clusters in list order, switch on a
strictly smaller distance.  The code compares Euclidean distances; comparing
the rational squared distances is equivalent (`pdist_lt_pdist_iff`) and keeps
the function executable. -/
def bestCluster {k : ℕ} (p : Vec2) (cur : Fin k) (C : Fin k → Vec2) : Fin k :=
  (List.finRange k).foldl
    (fun best j => if sqDist p (C j) < sqDist p (C best) then j else best) cur

/-- One full pass of `_turn` over all points (centers fixed). -/
def passAssign {n k : ℕ} (pts : Fin n → Vec2) (A : Fin n → Fin k) (C : Fin k → Vec2) :
    Fin n → Fin k :=
  fun i => bestCluster (pts i) (A i) C

/-- One iteration of the `while` body of `_turn`: the reassignment pass, then
the center recomputation (which uses the new assignment and the old centers). -/
def turnStep {n k : ℕ} (pts : Fin n → Vec2) (st : KState n k) : KState n k :=
  KState.mk (passAssign pts st.assign st.centers)
    (updateCenters pts (passAssign pts st.assign st.centers) st.centers)

/-- `Kmean._turn`: iterate `turnStep` until a pass changes no assignment,
returning the final state and the number of passes (`nb_loop`).  The Python
loop is unbounded; the embedding uses fuel, and the termination theorem
below shows a fuel bound computed from the input alone always suffices, so
the fuel never binds. -/
def turnLoop {n k : ℕ} (pts : Fin n → Vec2) : ℕ → KState n k → Option (KState n k × ℕ)
  | 0, _ => none
  | fuel + 1, st =>
    if (turnStep pts st).assign = st.assign then some (turnStep pts st, 1)
    else
      match turnLoop pts fuel (turnStep pts st) with
      | some (st2, m) => some (st2, m + 1)
      | none => none

/-- Coordinate-wise mean of the members of cluster `j` (the value
`_update_cluster_center` assigns to a non-empty cluster's center). -/
def meanOf {n k : ℕ} (pts : Fin n → Vec2) (A : Fin n → Fin k) (j : Fin k) : Vec2 :=
  ((∑ i ∈ clusterFiber A j, (pts i).1) / (clusterFiber A j).card,
   (∑ i ∈ clusterFiber A j, (pts i).2) / (clusterFiber A j).card)

/-- The centers of all non-empty clusters are the means of their members —
the invariant `_update_cluster_center` (re)establishes, which holds whenever
`_turn` is entered in the program. -/
def CentersAreMeans {n k : ℕ} (pts : Fin n → Vec2) (A : Fin n → Fin k)
    (C : Fin k → Vec2) : Prop :=
  ∀ j : Fin k, (clusterFiber A j).Nonempty → C j = meanOf pts A j

/-- Total within-cluster squared distance of an assignment under centers `C`. -/
def clusterCost {n k : ℕ} (pts : Fin n → Vec2) (A : Fin n → Fin k) (C : Fin k → Vec2) : ℚ :=
  ∑ i : Fin n, sqDist (pts i) (C (A i))

/-- Within-cluster squared distance of an assignment to its own means — the
Lloyd objective, a function of the assignment alone. -/
def turnEnergy {n k : ℕ} (pts : Fin n → Vec2) (A : Fin n → Fin k) : ℚ :=
  ∑ i : Fin n, sqDist (pts i) (meanOf pts A (A i))

/-- Number of assignments of strictly smaller objective: the termination
measure of the loop (the assignment space is finite). -/
def energyRank {n k : ℕ} (pts : Fin n → Vec2) (A : Fin n → Fin k) : ℕ :=
  (Finset.univ.filter (fun B : Fin n → Fin k => turnEnergy pts B < turnEnergy pts A)).card

/-! ### The driver (`Kmean.run`, `_initialization`, `_optimized_turn`,
`_count_neighbours`; claims C8, C10)

`run` performs `precision` restarts.  Each restart clears the clusters,
creates `k` clusters whose centers copy randomly chosen points
(`_init_clusters`), assigns every point to its closest cluster
(`_assign_point_to_closest_cluster`: start from `clusters[0]`, scan
`clusters[1:]`, switch on strict improvement), recomputes the centers, runs
`_turn` accumulating its pass count, then adds each point's cluster size to
its neighbour counter.  Randomness is passed in explicitly: one seed function
per restart gives the dataset index copied into each cluster's center, and
the seed list's length is the `precision`.  The dataset is non-empty
(`np + 1` points) and `k ≥ 1` (`kp + 1` clusters), as in any driver run that
reaches these routines; the turn fuel is the always-sufficient bound of
the termination theorem below, so the embedded fuel never binds. -/

/-- `Kmean._assign_point_to_closest_cluster` for one point: closest starts at
`clusters[0]`, then scan `clusters[1:]` switching on strictly smaller
distance. -/
def assignClosest {kp : ℕ} (p : Vec2) (C : Fin (kp + 1) → Vec2) : Fin (kp + 1) :=
  ((List.finRange (kp + 1)).drop 1).foldl
    (fun best j => if sqDist p (C j) < sqDist p (C best) then j else best) 0

/-- Fresh clusters with the given centers, initial full assignment, then one
center recomputation — the shared tail of `_initialization` and
`_optimized_turn`. -/
def seededState {np kp : ℕ} (pts : Fin (np + 1) → Vec2) (C0 : Fin (kp + 1) → Vec2) :
    KState (np + 1) (kp + 1) :=
  KState.mk (fun i => assignClosest (pts i) C0)
    (updateCenters pts (fun i => assignClosest (pts i) C0) C0)

/-- `Kmean._initialization` with the restart's random choices `seed`:
cluster `j`'s center copies the coordinates of point `seed j`. -/
def initRestart {np kp : ℕ} (pts : Fin (np + 1) → Vec2)
    (seed : Fin (kp + 1) → Fin (np + 1)) : KState (np + 1) (kp + 1) :=
  seededState pts (fun j => pts (seed j))

/-- The always-sufficient turn fuel (see the termination theorem below). -/
def turnFuel (np kp : ℕ) : ℕ := (kp + 1) ^ (np + 1) + 1

/-- `Kmean._count_neighbours`: each point's counter grows by the size of its
current cluster's member list. -/
def countNeighbours {np kp : ℕ} (A : Fin (np + 1) → Fin (kp + 1))
    (counter : Fin (np + 1) → ℕ) : Fin (np + 1) → ℕ :=
  fun i => counter i + (clusterFiber A (A i)).card

/-- The restart loop of `Kmean.run`: one seed per restart; returns the
accumulated pass count `nb_loop`, the neighbour counter, and the last
restart's state.  `none` on an empty seed list (the driver requires
`precision ≥ 1`) or on fuel exhaustion (impossible, by the termination
theorem below). -/
def restartsRun {np kp : ℕ} (pts : Fin (np + 1) → Vec2) :
    List (Fin (kp + 1) → Fin (np + 1)) → (Fin (np + 1) → ℕ) →
    Option (ℕ × (Fin (np + 1) → ℕ) × KState (np + 1) (kp + 1))
  | [], _ => none
  | s :: rest, counter =>
    (turnLoop pts (turnFuel np kp) (initRestart pts s)).bind (fun r =>
      if rest.isEmpty then some (r.2, countNeighbours r.1.assign counter, r.1)
      else (restartsRun pts rest (countNeighbours r.1.assign counter)).map
        (fun t => (r.2 + t.1, t.2.1, t.2.2)))

/-- The `max(self._neighbour_counter.items(), key=itemgetter(1))[0]` of
`_optimized_turn`: Python's `max` scans the dict items in insertion order —
which is dataset order, since the counter's keys are inserted in `__init__`
by iterating over the points and never removed — and keeps the first item
whose value is strictly greater than the current best's, so it returns the
first maximiser in dataset order. -/
def argmaxCounter {np : ℕ} (counter : Fin (np + 1) → ℕ) : Fin (np + 1) :=
  (List.finRange (np + 1)).foldl (fun best i => if counter best < counter i then i else best) 0

/-- The zeroing loop of `_optimized_turn`: `for point in cluster.points:
self._neighbour_counter[point] = 0`, where `cluster` is the selected point's
current cluster. -/
def zeroCluster {np kp : ℕ} (A : Fin (np + 1) → Fin (kp + 1))
    (counter : Fin (np + 1) → ℕ) (i0 : Fin (np + 1)) : Fin (np + 1) → ℕ :=
  (clusterList A (A i0)).foldl (fun c q => fun r => if r = q then 0 else c r) counter

/-- The `k` selection rounds of `_optimized_turn`: each round picks the
counter's maximiser, records its coordinates as a new center, and zeroes the
counter of every point of the selected point's current cluster (the
assignment `A` from the last restart is not modified during selection). -/
def selectRounds {np kp : ℕ} (pts : Fin (np + 1) → Vec2)
    (A : Fin (np + 1) → Fin (kp + 1)) : ℕ → (Fin (np + 1) → ℕ) → List Vec2
  | 0, _ => []
  | r + 1, counter =>
    pts (argmaxCounter counter) ::
      selectRounds pts A r (zeroCluster A counter (argmaxCounter counter))

/-- `Kmean._optimized_turn`: build the `k` reseeded centers, rebuild the
clusters, assign every point to its closest cluster, recompute centers, and
run a final `_turn`; returns the final state and its pass count. -/
def optimizedRun {np kp : ℕ} (pts : Fin (np + 1) → Vec2) (counter : Fin (np + 1) → ℕ)
    (st : KState (np + 1) (kp + 1)) : Option (KState (np + 1) (kp + 1) × ℕ) :=
  turnLoop pts (turnFuel np kp)
    (seededState pts (fun j => (selectRounds pts st.assign (kp + 1) counter).getD j (0, 0)))

/-- `Kmean.run` with the restarts' random choices passed explicitly
(`precision = seeds.length`): after the restarts, run the reseeding phase
once, then report the triple the code prints —
`'%d, %d, %d' % (self._k, nb_loop/self._precision, opt_loop)`.  The middle
value is a Python float (true division) formatted with `%d`, which truncates
toward zero; for these nonnegative counts that is exactly natural floor
division. -/
def runKmean {np kp : ℕ} (pts : Fin (np + 1) → Vec2)
    (seeds : List (Fin (kp + 1) → Fin (np + 1))) : Option (ℕ × ℕ × ℕ) :=
  (restartsRun pts seeds (fun _ => 0)).bind (fun r =>
    (optimizedRun pts r.2.1 r.2.2).map (fun o => (kp + 1, r.1 / seeds.length, o.2)))

/-! ### A concrete driver run (claim C8's counterexample)

Dataset of two points `(0,0)` and `(2,0)`, `k = 2`, `precision = 2`.  The
first restart seeds both centers on point 0: both points are first assigned
to cluster 0 (the scan keeps the current best on ties), the recomputed
center is `(1,0)` with cluster 1 empty and stale at `(0,0)`, and the turn
needs 2 passes (point 0 moves to cluster 1, then everything is stable).
The second restart seeds the centers on points 0 and 1 and converges in 1
pass.  Accumulated pass count 3, precision 2: the code prints `3/2` through
`'%d'`, i.e. `1`, while the exact arithmetic mean is `3/2`. -/

def witPts : Fin 2 → Vec2 := ![((0 : ℚ), (0 : ℚ)), ((2 : ℚ), (0 : ℚ))]

def witSeedA : Fin 2 → Fin 2 := ![0, 0]

def witSeedB : Fin 2 → Fin 2 := ![0, 1]

def witCb : Fin 2 → Vec2 := ![((1 : ℚ), (0 : ℚ)), ((0 : ℚ), (0 : ℚ))]

def witA2 : Fin 2 → Fin 2 := ![1, 0]

def witC2 : Fin 2 → Vec2 := ![((2 : ℚ), (0 : ℚ)), ((0 : ℚ), (0 : ℚ))]

def witAB : Fin 2 → Fin 2 := ![0, 1]

def witCD : Fin 2 → Vec2 := ![((0 : ℚ), (0 : ℚ)), ((2 : ℚ), (0 : ℚ))]

/-! ## Lemmas and claim theorems -/

lemma sqDist_nonneg (a b : Vec2) : 0 ≤ sqDist a b := by
  unfold sqDist; positivity

lemma sqDist_comm (a b : Vec2) : sqDist a b = sqDist b a := by
  unfold sqDist; ring

lemma sqDist3_comm (a b : Vec3) : sqDist3 a b = sqDist3 b a := by
  unfold sqDist3; ring

/-- Strict comparisons of the code's Euclidean distances coincide with strict
comparisons of the rational squared distances (the square root is strictly
monotone on nonnegative reals); this justifies running the code's `<`
comparisons on `sqDist` in the executable embedding below. -/
lemma pdist_lt_pdist_iff (p a b : Vec2) : pdist p a < pdist p b ↔ sqDist p a < sqDist p b := by
  unfold pdist
  constructor
  · intro h
    by_contra hle
    push_neg at hle
    exact absurd (Real.sqrt_le_sqrt (by exact_mod_cast hle)) (not_le.mpr h)
  · intro h
    exact Real.sqrt_lt_sqrt (by exact_mod_cast sqDist_nonneg p a) (by exact_mod_cast h)

lemma pdist_le_pdist_iff (p a b : Vec2) : pdist p a ≤ pdist p b ↔ sqDist p a ≤ sqDist p b := by
  constructor
  · intro h
    by_contra hlt
    push_neg at hlt
    exact absurd ((pdist_lt_pdist_iff p b a).mpr hlt) (not_lt.mpr h)
  · intro h
    rcases lt_or_eq_of_le h with h | h
    · exact le_of_lt ((pdist_lt_pdist_iff p a b).mpr h)
    · unfold pdist; rw [h]

lemma sumXY_loop_eq (l : List Vec2) :
    ∀ s : Vec2, l.foldl (fun s q => (s.1 + q.1, s.2 + q.2)) s
      = (s.1 + (l.map Prod.fst).sum, s.2 + (l.map Prod.snd).sum) := by
  induction l with
  | nil => intro s; simp
  | cons q l ih =>
    intro s
    simp only [List.foldl_cons, List.map_cons, List.sum_cons, ih]
    simp [add_assoc]

lemma sumXY_eq (l : List Vec2) : sumXY l = ((l.map Prod.fst).sum, (l.map Prod.snd).sum) := by
  unfold sumXY
  rw [sumXY_loop_eq]
  simp

/-! ## Claim theorems (distance model and center update) -/

/-- Claim C9: for every two points of equal dimensionality, the distance is
exactly symmetric, and the distance from a point to itself is exactly 0 —
both for 2D `Point.dist` and for 3D `Point3D.dist`. -/
theorem point_dist_symm_self :
    (∀ a b : Vec2, pdist a b = pdist b a ∧ pdist a a = 0) ∧
    (∀ a b : Vec3, pdist3 a b = pdist3 b a ∧ pdist3 a a = 0) := by
  constructor
  · intro a b
    constructor
    · unfold pdist; rw [sqDist_comm]
    · unfold pdist sqDist
      simp [Real.sqrt_eq_zero']
  · intro a b
    constructor
    · unfold pdist3; rw [sqDist3_comm]
    · unfold pdist3 sqDist3
      simp [Real.sqrt_eq_zero']

/-- Claim C6 counterexample: `dist` between a 2D point and a 3D point (2D
receiver) does not fail at all — it returns a number, namely the 2D distance
that simply ignores the `z` coordinate: `Point(0,0).dist(Point3D(3,4,12))`
returns `5`, not a `DimensionMismatch` failure. -/
theorem mixed_dist_returns_number :
    pyDist (PyPoint.p2 0 0) (PyPoint.p3 3 4 12) = some 5 := by
  unfold pyDist pointDistOf2D pdist sqDist PyPoint.px PyPoint.py
  norm_num
  rw [show ((25 : ℝ) = 5 ^ 2) by norm_num, Real.sqrt_sq (by norm_num)]

/-- Claim C6 amended: there is no `DimensionMismatch` check anywhere; for a
mixed-dimensional pair, the result depends on the receiver: a 2D receiver
returns the 2D Euclidean distance computed from `x`/`y` only (the 3D point's
`z` is silently ignored), while a 3D receiver fails — with Python's
`AttributeError` for the missing `z` attribute, not a dedicated error. -/
theorem mixed_dist_behavior :
    ∀ x y x' y' z' : ℚ,
      pyDist (PyPoint.p2 x y) (PyPoint.p3 x' y' z')
          = some (Real.sqrt (((x - x') ^ 2 + (y - y') ^ 2 : ℚ) : ℝ)) ∧
      pyDist (PyPoint.p3 x' y' z') (PyPoint.p2 x y) = none := by
  intro x y x' y' z'
  constructor
  · unfold pyDist pointDistOf2D pdist sqDist PyPoint.px PyPoint.py
    norm_num
  · unfold pyDist pointDistOf3D PyPoint.pz
    simp

/-- Claim C4 counterexample: the center recomputation does not treat all `D`
dimensions for `D = 3`.  On the member list `[(0,0,0), (2,0,2)]` with current
center `(5,5,5)` the code produces center `(1, 0, 5)`: the `z` component
stays at the stale value `5` instead of the coordinate-wise mean `1`, because
`_update_cluster_center` only ever sums and assigns `x` and `y`. -/
theorem update_center_ignores_z :
    updateCenter3D [(0, 0, 0), (2, 0, 2)] (5, 5, 5) = (1, 0, 5) ∧ (5 : ℚ) ≠ (0 + 2) / 2 := by
  constructor
  · unfold updateCenter3D
    norm_num
  · norm_num

/-- Claim C4 amended: after each full pass `_update_cluster_center` sets each
non-empty cluster's center, for the two dimensions `x` and `y` it actually
handles, to the coordinate-wise arithmetic mean of its member points; a
cluster with zero members keeps its center entirely unchanged and no division
by zero occurs (the divisor `nb_points` is nonzero exactly when the division
runs).  The third coordinate of a 3D center would never be recomputed (3D
support in this routine is an unimplemented TODO in the code). -/
theorem update_center_componentwise_mean :
    (∀ (l : List Vec2) (c : Vec2), l ≠ [] →
        updateCenter l c
            = ((l.map Prod.fst).sum / l.length, (l.map Prod.snd).sum / l.length)
          ∧ (l.length : ℚ) ≠ 0) ∧
    (∀ c : Vec2, updateCenter [] c = c) ∧
    (∀ (l3 : List Vec3) (c3 : Vec3), (updateCenter3D l3 c3).2.2 = c3.2.2) := by
  refine ⟨?_, ?_, ?_⟩
  · intro l c hl
    have hlen : 0 < l.length := List.length_pos.mpr hl
    constructor
    · unfold updateCenter
      rw [if_pos hlen, sumXY_eq]
    · exact_mod_cast Nat.pos_iff_ne_zero.mp hlen
  · intro c
    unfold updateCenter
    simp
  · intro l3 c3
    unfold updateCenter3D
    by_cases h : 0 < l3.length
    · rw [if_pos h]
    · rw [if_neg h]

/-- Witness for the amended C4 theorem at a concrete cluster: members
`[(1,2),(3,4)]` with center `(0,0)` get the mean center `(2,3)`. -/
theorem update_center_componentwise_mean_witness :
    updateCenter [(1, 2), (3, 4)] (0, 0) = (2, 3) := by
  have h := (update_center_componentwise_mean.1 [(1, 2), (3, 4)] (0, 0) (by simp)).1
  rw [h]
  norm_num

/-- Claim C5 counterexample: the constructor validation does not fail for
`k < 1`, nor for every `k` above the number of points.  For a dataset of 2
points (a 2-row, 3-column DataFrame): `k = 0` is accepted, and `k = 5 > 2`
is also accepted because the code compares `k` against `dataset.size = 6`
(cells, rows×columns), not against the number of points. -/
theorem kmean_init_accepts_invalid_k :
    kmeanInit 2 3 0 = .ok (List.replicate 2 0) ∧ (0 : ℕ) < 1 ∧
    kmeanInit 2 3 5 = .ok (List.replicate 2 0) ∧ 2 < 5 := by
  exact ⟨rfl, by norm_num, rfl, by norm_num⟩

/-- Claim C5 amended: `Kmean.__init__` raises its `ValueError` (the spec's
`InvalidClusterCount`), before any computation starts, exactly when the
dataset is non-empty and `k` exceeds `dataset.size = rows * columns` — the
pandas cell count, not the number of points; no `k ≥ 1` lower bound is
enforced by the constructor (the command-line parser, not the constructor,
rejects `k < 1`). -/
theorem kmean_init_rejects_iff :
    ∀ nRows nCols k : ℕ,
      kmeanInit nRows nCols k = .error .badK ↔ 0 < nRows * nCols ∧ nRows * nCols < k := by
  intro nRows nCols k
  unfold kmeanInit
  by_cases h0 : nRows * nCols = 0
  · rw [if_pos h0]
    simp [h0]
  · rw [if_neg h0]
    by_cases hk : nRows * nCols < k
    · rw [if_pos hk]
      simp [hk, Nat.pos_of_ne_zero h0]
    · rw [if_neg hk]
      simp [hk]

lemma listModifyAt_length {α : Type} (f : α → α) :
    ∀ (i : ℕ) (l : List α), (listModifyAt f i l).length = l.length := by
  intro i l
  induction l generalizing i with
  | nil => cases i <;> rfl
  | cons x xs ih => cases i with
    | zero => simp [listModifyAt]
    | succ i => simp [listModifyAt, ih]

lemma listModifyAt_getD {α : Type} (f : α → α) (d : α) :
    ∀ (i : ℕ) (l : List α) (j : ℕ),
      (listModifyAt f i l).getD j d
        = if j = i ∧ i < l.length then f (l.getD i d) else l.getD j d := by
  intro i l
  induction l generalizing i with
  | nil =>
    intro j
    cases i <;> simp [listModifyAt]
  | cons x xs ih =>
    intro j
    cases i with
    | zero =>
      cases j with
      | zero => simp [listModifyAt]
      | succ j => simp [listModifyAt]
    | succ i =>
      cases j with
      | zero => simp [listModifyAt]
      | succ j =>
        simp only [listModifyAt, List.getD_cons_succ, ih i j, List.length_cons]
        by_cases h : j = i ∧ i < xs.length
        · rw [if_pos h, if_pos (by omega)]
        · rw [if_neg h, if_neg (by omega)]

lemma removePrior_length {n : ℕ} (st : ObjState n) (p : Fin n) :
    (removePrior st p).length = st.clusters.length := by
  unfold removePrior
  rcases st.ptCluster p with _ | c0 <;> simp [listModifyAt_length]

lemma clusterAssign_clusters_length {n : ℕ} (st : ObjState n) (c : ℕ) (p : Fin n) :
    (clusterAssign st c p).clusters.length = st.clusters.length := by
  unfold clusterAssign
  simp [listModifyAt_length, removePrior_length]

/-- After the removal half of `assign`, the point occurs in no member list,
and all other points' occurrence counts are untouched. -/
lemma count_removePrior {n : ℕ} (st : ObjState n) (hInv : ObjInv st) (p q : Fin n) (c' : ℕ) :
    ((removePrior st p).getD c' []).count q
      = if q = p then 0 else (st.clusters.getD c' []).count q := by
  obtain ⟨h1, h2⟩ := hInv
  unfold removePrior
  rcases hp : st.ptCluster p with _ | c0
  · by_cases hqp : q = p
    · subst hqp
      rw [if_pos rfl, h2 q c', hp]
      simp
    · rw [if_neg hqp]
  · have hc0 : c0 < st.clusters.length := h1 p c0 hp
    rw [listModifyAt_getD]
    by_cases hcc : c' = c0
    · rw [if_pos ⟨hcc, hc0⟩]
      subst hcc
      by_cases hqp : q = p
      · subst hqp
        rw [if_pos rfl, List.count_erase_self, h2 q c', hp, if_pos rfl]
      · rw [if_neg hqp, List.count_erase_of_ne hqp]
    · rw [if_neg (by exact fun hand => hcc hand.1)]
      by_cases hqp : q = p
      · subst hqp
        rw [if_pos rfl, h2 q c', hp, if_neg (by simpa [eq_comm] using hcc)]
      · rw [if_neg hqp]

/-- `Cluster.assign` preserves the membership invariant. -/
lemma clusterAssign_inv {n : ℕ} (st : ObjState n) (c : ℕ) (p : Fin n)
    (hInv : ObjInv st) (hc : c < st.clusters.length) : ObjInv (clusterAssign st c p) := by
  have hlenR : (removePrior st p).length = st.clusters.length := removePrior_length st p
  obtain ⟨h1, h2⟩ := hInv
  constructor
  · intro q c' hq
    rw [clusterAssign_clusters_length]
    by_cases hqp : q = p
    · have h' : some c = some c' := by simpa [clusterAssign, hqp] using hq
      have := Option.some.inj h'
      omega
    · exact h1 q c' (by simpa [clusterAssign, hqp] using hq)
  · intro q c'
    show ((listModifyAt (fun l => l ++ [p]) c (removePrior st p)).getD c' []).count q = _
    rw [listModifyAt_getD]
    by_cases hcc : c' = c
    · rw [if_pos ⟨hcc, by rw [hlenR]; exact hc⟩, List.count_append,
        count_removePrior st ⟨h1, h2⟩ p q c]
      by_cases hqp : q = p
      · subst hqp
        simp [clusterAssign, hcc]
      · simp only [if_neg hqp]
        have hone : [p].count q = 0 := by simp [List.count_cons, hqp]
        rw [hone, Nat.add_zero]
        subst hcc
        have hgoal := h2 q c'
        simp only [clusterAssign]
        simp only [if_neg hqp]
        exact hgoal
    · rw [if_neg (by exact fun hand => hcc hand.1),
        count_removePrior st ⟨h1, h2⟩ p q c']
      by_cases hqp : q = p
      · subst hqp
        rw [if_pos rfl]
        have hne : ¬ ((clusterAssign st c q).ptCluster q = some c') := by
          intro h
          have h' : some c = some c' := by simpa [clusterAssign] using h
          exact hcc (Option.some.inj h').symm
        rw [if_neg hne]
      · rw [if_neg hqp]
        have hgoal := h2 q c'
        simp only [clusterAssign]
        simp only [if_neg hqp]
        exact hgoal

lemma length_eq_sum_count {n : ℕ} (l : List (Fin n)) :
    l.length = ∑ q : Fin n, l.count q := by
  induction l with
  | nil => simp
  | cons x xs ih =>
    simp only [List.length_cons, List.count_cons, beq_iff_eq, ih]
    rw [Finset.sum_add_distrib, Finset.sum_ite_eq]
    simp

lemma clusters_sum_len {n : ℕ} (L : List (List (Fin n))) :
    (L.map List.length).sum = ∑ c ∈ Finset.range L.length, (L.getD c []).length := by
  induction L with
  | nil => simp
  | cons x xs ih =>
    simp only [List.map_cons, List.sum_cons, List.length_cons]
    rw [Finset.sum_range_succ']
    simp only [List.getD_cons_succ, List.getD_cons_zero]
    rw [← ih]
    omega

/-- With the invariant and every point assigned, the member lists partition
the dataset: their lengths sum to `n`. -/
lemma obj_sum_len {n : ℕ} (st : ObjState n) (hInv : ObjInv st)
    (hAll : ∀ q : Fin n, st.ptCluster q ≠ none) :
    (st.clusters.map List.length).sum = n := by
  obtain ⟨h1, h2⟩ := hInv
  rw [clusters_sum_len]
  rw [Finset.sum_congr rfl (fun c _ => length_eq_sum_count (st.clusters.getD c []))]
  rw [Finset.sum_comm]
  have h3 : ∀ q : Fin n,
      (∑ c ∈ Finset.range st.clusters.length, (st.clusters.getD c []).count q) = 1 := by
    intro q
    rcases hq : st.ptCluster q with _ | cq
    · exact absurd hq (hAll q)
    · have hcq : cq < st.clusters.length := h1 q cq hq
      have : ∀ c ∈ Finset.range st.clusters.length,
          (st.clusters.getD c []).count q = if cq = c then 1 else 0 := by
        intro c _
        rw [h2 q c, hq]
        simp
      rw [Finset.sum_congr rfl this, Finset.sum_ite_eq]
      simp [Finset.mem_range.mpr hcq]
  rw [Finset.sum_congr rfl (fun q _ => h3 q)]
  simp

lemma assignAll_loop_length {n : ℕ} (f : Fin n → ℕ) :
    ∀ (l : List (Fin n)) (st : ObjState n),
      (l.foldl (fun s i => clusterAssign s (f i) i) st).clusters.length
        = st.clusters.length := by
  intro l
  induction l with
  | nil => intro st; rfl
  | cons i l ih =>
    intro st
    rw [List.foldl_cons, ih, clusterAssign_clusters_length]

lemma assignAll_loop_inv {n : ℕ} (f : Fin n → ℕ) :
    ∀ (l : List (Fin n)) (st : ObjState n), ObjInv st →
      (∀ i : Fin n, f i < st.clusters.length) →
      ObjInv (l.foldl (fun s i => clusterAssign s (f i) i) st) := by
  intro l
  induction l with
  | nil => intro st h _; exact h
  | cons i l ih =>
    intro st h hf
    rw [List.foldl_cons]
    exact ih _ (clusterAssign_inv st (f i) i h (hf i))
      (fun j => by rw [clusterAssign_clusters_length]; exact hf j)

lemma assignAll_loop_assigned {n : ℕ} (f : Fin n → ℕ) :
    ∀ (l : List (Fin n)) (st : ObjState n),
      (∀ q : Fin n, q ∈ l ∨ st.ptCluster q ≠ none) →
      ∀ q : Fin n, (l.foldl (fun s i => clusterAssign s (f i) i) st).ptCluster q ≠ none := by
  intro l
  induction l with
  | nil =>
    intro st h q
    rcases h q with h | h
    · simp at h
    · exact h
  | cons i l ih =>
    intro st h q
    rw [List.foldl_cons]
    refine ih _ (fun r => ?_) q
    rcases h r with hr | hr
    · rcases List.mem_cons.mp hr with hr | hr
      · right
        subst hr
        simp [clusterAssign]
      · left; exact hr
    · right
      by_cases hrp : r = i
      · subst hrp; simp [clusterAssign]
      · simpa [clusterAssign, hrp] using hr

/-- Claim C2: `Cluster.assign` (removal from the prior owner, then insertion
and back-reference update) preserves the invariant that a point occurs in at
most one cluster's member list, exactly the one its back-reference stores,
and sets the assigned point's back-reference to the target cluster; under the
invariant, once every point is assigned — as after the initial full
assignment, and hence after any completed turn, whose only mutation is
further `assign` calls — the member-list lengths sum to the dataset size,
every point counted exactly once. -/
theorem cluster_assign_partition (n : ℕ) :
    (∀ (st : ObjState n) (c : ℕ) (p : Fin n), ObjInv st → c < st.clusters.length →
        ObjInv (clusterAssign st c p) ∧ (clusterAssign st c p).ptCluster p = some c) ∧
    (∀ st : ObjState n, ObjInv st → (∀ q : Fin n, st.ptCluster q ≠ none) →
        (st.clusters.map List.length).sum = n) ∧
    (∀ (st : ObjState n) (f : Fin n → ℕ), ObjInv st →
        (∀ i : Fin n, f i < st.clusters.length) →
        ObjInv (assignAll st f) ∧ ∀ q : Fin n, (assignAll st f).ptCluster q ≠ none) := by
  refine ⟨fun st c p hInv hc => ⟨clusterAssign_inv st c p hInv hc, by simp [clusterAssign]⟩,
    fun st hInv hAll => obj_sum_len st hInv hAll,
    fun st f hInv hf => ⟨assignAll_loop_inv f _ st hInv hf, ?_⟩⟩
  exact assignAll_loop_assigned f _ st (fun q => Or.inl (List.mem_finRange q))

/-- Witness for C2 at a concrete state: one point, one initially empty
cluster, the closest-cluster map sending everything to cluster `0`; after the
full assignment the invariant holds and the member lists sum to the dataset
size `1`. -/
theorem cluster_assign_partition_witness :
    ((assignAll (ObjState.mk ([[]] : List (List (Fin 1))) (fun _ => none)) (fun _ => 0)).clusters.map
        List.length).sum = 1 := by
  have h := cluster_assign_partition 1
  have hInv : ObjInv (ObjState.mk ([[]] : List (List (Fin 1))) (fun _ => none)) := by
    constructor
    · intro p c hp
      simp at hp
    · intro p c
      rcases c with _ | c <;> simp
  have h3 := h.2.2 (ObjState.mk ([[]] : List (List (Fin 1))) (fun _ => none)) (fun _ => 0) hInv
    (by intro i; simp)
  exact h.2.1 _ h3.1 h3.2

lemma turnStep_assign {n k : ℕ} (pts : Fin n → Vec2) (st : KState n k) :
    (turnStep pts st).assign = passAssign pts st.assign st.centers := rfl

lemma turnStep_centers {n k : ℕ} (pts : Fin n → Vec2) (st : KState n k) :
    (turnStep pts st).centers
      = updateCenters pts (passAssign pts st.assign st.centers) st.centers := rfl

lemma turnLoop_succ {n k : ℕ} (pts : Fin n → Vec2) (fuel : ℕ) (st : KState n k) :
    turnLoop pts (fuel + 1) st
      = if (turnStep pts st).assign = st.assign then some (turnStep pts st, 1)
        else
          match turnLoop pts fuel (turnStep pts st) with
          | some (st2, m) => some (st2, m + 1)
          | none => none := rfl

lemma mem_clusterList {n k : ℕ} (A : Fin n → Fin k) (j : Fin k) (i : Fin n) :
    i ∈ clusterList A j ↔ A i = j := by
  unfold clusterList
  rw [List.mem_filter]
  simp [List.mem_finRange]

lemma clusterList_toFinset {n k : ℕ} (A : Fin n → Fin k) (j : Fin k) :
    (clusterList A j).toFinset = clusterFiber A j := by
  unfold clusterList clusterFiber
  ext i
  simp [List.mem_filter, List.mem_finRange]

lemma clusterList_nodup {n k : ℕ} (A : Fin n → Fin k) (j : Fin k) :
    (clusterList A j).Nodup :=
  (List.nodup_finRange n).filter _

lemma clusterList_length {n k : ℕ} (A : Fin n → Fin k) (j : Fin k) :
    (clusterList A j).length = (clusterFiber A j).card := by
  rw [← clusterList_toFinset, List.toFinset_card_of_nodup (clusterList_nodup A j)]

lemma clusterList_map_sum {n k : ℕ} (A : Fin n → Fin k) (j : Fin k) (f : Fin n → ℚ) :
    ((clusterList A j).map f).sum = ∑ i ∈ clusterFiber A j, f i := by
  rw [← clusterList_toFinset, List.sum_toFinset f (clusterList_nodup A j)]

lemma mem_clusterFiber {n k : ℕ} (A : Fin n → Fin k) (j : Fin k) (i : Fin n) :
    i ∈ clusterFiber A j ↔ A i = j := by
  unfold clusterFiber
  simp

lemma mem_clusterFiber_self {n k : ℕ} (A : Fin n → Fin k) (i : Fin n) :
    i ∈ clusterFiber A (A i) := (mem_clusterFiber A (A i) i).mpr rfl

lemma updateCenters_apply_nonempty {n k : ℕ} (pts : Fin n → Vec2) (A : Fin n → Fin k)
    (C : Fin k → Vec2) (j : Fin k) (h : (clusterFiber A j).Nonempty) :
    updateCenters pts A C j = meanOf pts A j := by
  unfold updateCenters updateCenter
  have hlen : ((clusterList A j).map pts).length = (clusterFiber A j).card := by
    rw [List.length_map, clusterList_length]
  have hpos : 0 < ((clusterList A j).map pts).length := by
    rw [hlen]
    exact Finset.card_pos.mpr h
  rw [if_pos hpos, sumXY_eq]
  unfold meanOf
  rw [List.map_map, List.map_map]
  have hx : ((clusterList A j).map (Prod.fst ∘ pts)).sum = ∑ i ∈ clusterFiber A j, (pts i).1 :=
    clusterList_map_sum A j (fun i => (pts i).1)
  have hy : ((clusterList A j).map (Prod.snd ∘ pts)).sum = ∑ i ∈ clusterFiber A j, (pts i).2 :=
    clusterList_map_sum A j (fun i => (pts i).2)
  rw [hx, hy, hlen]

lemma updateCenters_apply_empty {n k : ℕ} (pts : Fin n → Vec2) (A : Fin n → Fin k)
    (C : Fin k → Vec2) (j : Fin k) (h : ¬ (clusterFiber A j).Nonempty) :
    updateCenters pts A C j = C j := by
  unfold updateCenters updateCenter
  have hlen : ((clusterList A j).map pts).length = (clusterFiber A j).card := by
    rw [List.length_map, clusterList_length]
  rw [if_neg]
  rw [hlen]
  simpa [Finset.card_pos] using h

/-- `_update_cluster_center` re-establishes the means invariant. -/
lemma updateCenters_centered {n k : ℕ} (pts : Fin n → Vec2) (A : Fin n → Fin k)
    (C : Fin k → Vec2) : CentersAreMeans pts A (updateCenters pts A C) :=
  fun j hj => updateCenters_apply_nonempty pts A C j hj

/-- Recomputing centers that already are the members' means changes nothing. -/
lemma centered_update_eq {n k : ℕ} (pts : Fin n → Vec2) (A : Fin n → Fin k)
    (C : Fin k → Vec2) (hC : CentersAreMeans pts A C) : updateCenters pts A C = C := by
  funext j
  by_cases h : (clusterFiber A j).Nonempty
  · rw [updateCenters_apply_nonempty pts A C j h, hC j h]
  · exact updateCenters_apply_empty pts A C j h

lemma cost_eq_energy {n k : ℕ} (pts : Fin n → Vec2) (A : Fin n → Fin k) (C : Fin k → Vec2)
    (hC : CentersAreMeans pts A C) : clusterCost pts A C = turnEnergy pts A := by
  unfold clusterCost turnEnergy
  refine Finset.sum_congr rfl (fun i _ => ?_)
  rw [hC (A i) ⟨i, mem_clusterFiber_self A i⟩]

lemma sum_sq_shift {ι : Type} (s : Finset ι) (f : ι → ℚ) (a : ℚ) :
    (∑ i ∈ s, (f i - a) ^ 2)
      = (∑ i ∈ s, f i ^ 2) - 2 * a * (∑ i ∈ s, f i) + s.card * a ^ 2 := by
  have h : ∀ i ∈ s, (f i - a) ^ 2 = f i ^ 2 - 2 * a * f i + a ^ 2 := fun i _ => by ring
  rw [Finset.sum_congr rfl h, Finset.sum_add_distrib, Finset.sum_sub_distrib, ← Finset.mul_sum,
    Finset.sum_const, nsmul_eq_mul]

/-- For a non-empty finite family, the sum of squared deviations from the
arithmetic mean is at most the sum of squared deviations from any value:
recomputing a center as the members' mean can only shrink the within-cluster
squared distance. -/
lemma sum_sq_mean_le {ι : Type} (s : Finset ι) (f : ι → ℚ) (a : ℚ) (hs : s.Nonempty) :
    (∑ i ∈ s, (f i - (∑ i ∈ s, f i) / s.card) ^ 2) ≤ ∑ i ∈ s, (f i - a) ^ 2 := by
  have hcard : (0 : ℚ) < s.card := by exact_mod_cast Finset.card_pos.mpr hs
  set m : ℚ := (∑ i ∈ s, f i) / s.card with hm
  have hsum : (∑ i ∈ s, f i) = s.card * m := by
    rw [hm]
    field_simp
  rw [sum_sq_shift, sum_sq_shift, hsum]
  have key : 0 ≤ (s.card : ℚ) * (m - a) ^ 2 := by positivity
  nlinarith [key]

lemma sum_sqDist_mean_le {n k : ℕ} (pts : Fin n → Vec2) (A : Fin n → Fin k) (j : Fin k)
    (c : Vec2) (h : (clusterFiber A j).Nonempty) :
    (∑ i ∈ clusterFiber A j, sqDist (pts i) (meanOf pts A j))
      ≤ ∑ i ∈ clusterFiber A j, sqDist (pts i) c := by
  unfold sqDist meanOf
  simp only
  rw [Finset.sum_add_distrib, Finset.sum_add_distrib]
  exact add_le_add (sum_sq_mean_le (clusterFiber A j) (fun i => (pts i).1) c.1 h)
    (sum_sq_mean_le (clusterFiber A j) (fun i => (pts i).2) c.2 h)

/-- Group the total cost by cluster. -/
lemma cost_group {n k : ℕ} (pts : Fin n → Vec2) (A : Fin n → Fin k) (g : Fin k → Vec2) :
    (∑ i : Fin n, sqDist (pts i) (g (A i)))
      = ∑ j : Fin k, ∑ i ∈ clusterFiber A j, sqDist (pts i) (g j) := by
  have h : ∀ j : Fin k, (∑ i ∈ clusterFiber A j, sqDist (pts i) (g j))
      = ∑ i ∈ clusterFiber A j, sqDist (pts i) (g (A i)) := by
    intro j
    refine Finset.sum_congr rfl (fun i hi => ?_)
    rw [(mem_clusterFiber A j i).mp hi]
  rw [Finset.sum_congr rfl (fun j _ => h j)]
  exact (Finset.sum_fiberwise Finset.univ A (fun i => sqDist (pts i) (g (A i)))).symm

/-- The center-update half of a loop iteration never increases the cost. -/
lemma cost_update_le {n k : ℕ} (pts : Fin n → Vec2) (A : Fin n → Fin k) (C : Fin k → Vec2) :
    clusterCost pts A (updateCenters pts A C) ≤ clusterCost pts A C := by
  unfold clusterCost
  rw [cost_group, cost_group]
  refine Finset.sum_le_sum (fun j _ => ?_)
  by_cases h : (clusterFiber A j).Nonempty
  · rw [updateCenters_apply_nonempty pts A C j h]
    exact sum_sqDist_mean_le pts A j (C j) h
  · rw [Finset.not_nonempty_iff_eq_empty.mp h]
    simp

lemma best_foldl_le {k : ℕ} (p : Vec2) (C : Fin k → Vec2) :
    ∀ (l : List (Fin k)) (b : Fin k),
      sqDist p (C (l.foldl
          (fun best j => if sqDist p (C j) < sqDist p (C best) then j else best) b))
        ≤ sqDist p (C b) ∧
      (l.foldl (fun best j => if sqDist p (C j) < sqDist p (C best) then j else best) b = b ∨
        sqDist p (C (l.foldl
            (fun best j => if sqDist p (C j) < sqDist p (C best) then j else best) b))
          < sqDist p (C b)) := by
  intro l
  induction l with
  | nil => intro b; exact ⟨le_refl _, Or.inl rfl⟩
  | cons x l ih =>
    intro b
    simp only [List.foldl_cons]
    by_cases h : sqDist p (C x) < sqDist p (C b)
    · rw [if_pos h]
      obtain ⟨h1, _⟩ := ih x
      exact ⟨le_of_lt (lt_of_le_of_lt h1 h), Or.inr (lt_of_le_of_lt h1 h)⟩
    · rw [if_neg h]
      exact ih b

lemma best_foldl_stay {k : ℕ} (p : Vec2) (C : Fin k → Vec2) :
    ∀ (l : List (Fin k)) (b : Fin k), (∀ j ∈ l, sqDist p (C b) ≤ sqDist p (C j)) →
      l.foldl (fun best j => if sqDist p (C j) < sqDist p (C best) then j else best) b = b := by
  intro l
  induction l with
  | nil => intro b _; rfl
  | cons x l ih =>
    intro b h
    simp only [List.foldl_cons]
    rw [if_neg (not_lt.mpr (h x (List.mem_cons_self x l)))]
    exact ih b (fun j hj => h j (List.mem_cons_of_mem x hj))

/-- The inner comparison loop only moves a point to a strictly closer
center, and keeps the current cluster when nothing is strictly closer. -/
lemma bestCluster_spec {k : ℕ} (p : Vec2) (cur : Fin k) (C : Fin k → Vec2) :
    sqDist p (C (bestCluster p cur C)) ≤ sqDist p (C cur) ∧
    (bestCluster p cur C = cur ∨ sqDist p (C (bestCluster p cur C)) < sqDist p (C cur)) :=
  best_foldl_le p C (List.finRange k) cur

lemma bestCluster_stay {k : ℕ} (p : Vec2) (cur : Fin k) (C : Fin k → Vec2)
    (h : ∀ j : Fin k, sqDist p (C cur) ≤ sqDist p (C j)) : bestCluster p cur C = cur :=
  best_foldl_stay p C (List.finRange k) cur (fun j _ => h j)

/-- The reassignment pass strictly decreases the cost whenever it changes
any assignment (centers fixed: each moved point strictly improves, no point
gets worse). -/
lemma cost_pass_lt {n k : ℕ} (pts : Fin n → Vec2) (A : Fin n → Fin k) (C : Fin k → Vec2)
    (hne : passAssign pts A C ≠ A) :
    clusterCost pts (passAssign pts A C) C < clusterCost pts A C := by
  unfold clusterCost
  refine Finset.sum_lt_sum (fun i _ => (bestCluster_spec (pts i) (A i) C).1) ?_
  obtain ⟨i, hi⟩ := Function.ne_iff.mp hne
  refine ⟨i, Finset.mem_univ i, ?_⟩
  rcases (bestCluster_spec (pts i) (A i) C).2 with h | h
  · exact absurd h hi
  · exact h

/-- One changing loop iteration strictly decreases the Lloyd objective,
provided the centers entering the iteration are the members' means (as they
are from the second iteration on, and on entry to `_turn` in the program). -/
lemma energy_step_lt {n k : ℕ} (pts : Fin n → Vec2) (A : Fin n → Fin k) (C : Fin k → Vec2)
    (hC : CentersAreMeans pts A C) (hne : passAssign pts A C ≠ A) :
    turnEnergy pts (passAssign pts A C) < turnEnergy pts A := by
  have h1 : turnEnergy pts (passAssign pts A C)
      = clusterCost pts (passAssign pts A C) (updateCenters pts (passAssign pts A C) C) :=
    (cost_eq_energy pts (passAssign pts A C) _ (updateCenters_centered pts (passAssign pts A C) C)).symm
  rw [h1]
  calc clusterCost pts (passAssign pts A C) (updateCenters pts (passAssign pts A C) C)
      ≤ clusterCost pts (passAssign pts A C) C := cost_update_le pts (passAssign pts A C) C
    _ < clusterCost pts A C := cost_pass_lt pts A C hne
    _ = turnEnergy pts A := cost_eq_energy pts A C hC

lemma energyRank_lt {n k : ℕ} (pts : Fin n → Vec2) (A B : Fin n → Fin k)
    (h : turnEnergy pts B < turnEnergy pts A) : energyRank pts B < energyRank pts A := by
  unfold energyRank
  refine Finset.card_lt_card ?_
  constructor
  · intro D hD
    rw [Finset.mem_filter] at hD ⊢
    exact ⟨hD.1, lt_trans hD.2 h⟩
  · intro hsub
    have hB : B ∈ Finset.univ.filter (fun D : Fin n → Fin k => turnEnergy pts D < turnEnergy pts A) :=
      Finset.mem_filter.mpr ⟨Finset.mem_univ B, h⟩
    have := Finset.mem_filter.mp (hsub hB)
    exact absurd this.2 (lt_irrefl _)

lemma energyRank_lt_card {n k : ℕ} (pts : Fin n → Vec2) (A : Fin n → Fin k) :
    energyRank pts A < k ^ n := by
  have hcard : Fintype.card (Fin n → Fin k) = k ^ n := by
    rw [Fintype.card_fun, Fintype.card_fin, Fintype.card_fin]
  rw [← hcard, ← Finset.card_univ]
  refine Finset.card_lt_card ?_
  constructor
  · exact Finset.filter_subset _ _
  · intro hsub
    have hA := Finset.mem_filter.mp (hsub (Finset.mem_univ A))
    exact absurd hA.2 (lt_irrefl _)

/-- Fuel `energyRank + 1` suffices for the loop whenever the entering
centers are the members' means. -/
lemma turnLoop_total {n k : ℕ} (pts : Fin n → Vec2) :
    ∀ (fuel : ℕ) (st : KState n k), CentersAreMeans pts st.assign st.centers →
      energyRank pts st.assign < fuel → ∃ r, turnLoop pts fuel st = some r := by
  intro fuel
  induction fuel with
  | zero => intro st _ h; omega
  | succ fuel ih =>
    intro st hC hrank
    rw [turnLoop_succ]
    by_cases h : (turnStep pts st).assign = st.assign
    · rw [if_pos h]
      exact ⟨(turnStep pts st, 1), rfl⟩
    · rw [if_neg h]
      have hlt : turnEnergy pts (turnStep pts st).assign < turnEnergy pts st.assign := by
        rw [turnStep_assign]
        exact energy_step_lt pts st.assign st.centers hC
          (by rw [turnStep_assign] at h; exact h)
      have hC2 : CentersAreMeans pts (turnStep pts st).assign (turnStep pts st).centers := by
        rw [turnStep_assign, turnStep_centers]
        exact updateCenters_centered pts (passAssign pts st.assign st.centers) st.centers
      have hrank2 : energyRank pts (turnStep pts st).assign < fuel := by
        have := energyRank_lt pts st.assign (turnStep pts st).assign hlt
        omega
      obtain ⟨⟨st2, m⟩, hr⟩ := ih (turnStep pts st) hC2 hrank2
      rw [hr]
      exact ⟨(st2, m + 1), rfl⟩

/-- Claim C1: for every finite dataset and every entering state (each point
already assigned to some cluster, any centers), the turn loop terminates by
itself: `k ^ n + 1` passes always suffice, a bound depending only on the
input, with no externally imposed iteration cap.  The objective strictly
decreases at every pass that moves a point and the assignment space is
finite. -/
theorem kmean_turn_terminates (n k : ℕ) (pts : Fin n → Vec2) (st : KState n k) :
    ∃ r, turnLoop pts (k ^ n + 1) st = some r := by
  rw [turnLoop_succ]
  by_cases h : (turnStep pts st).assign = st.assign
  · rw [if_pos h]
    exact ⟨(turnStep pts st, 1), rfl⟩
  · rw [if_neg h]
    have hC2 : CentersAreMeans pts (turnStep pts st).assign (turnStep pts st).centers := by
      rw [turnStep_assign, turnStep_centers]
      exact updateCenters_centered pts (passAssign pts st.assign st.centers) st.centers
    obtain ⟨⟨st2, m⟩, hr⟩ := turnLoop_total pts (k ^ n) (turnStep pts st) hC2
      (energyRank_lt_card pts (turnStep pts st).assign)
    rw [hr]
    exact ⟨(st2, m + 1), rfl⟩

/-- Claim C3: in each pass of the turn loop the baseline for a point is the
Euclidean distance to its current cluster's center; the point is reassigned
only to a cluster whose center is strictly closer than that baseline, and
when the minimum distance is also attained by the current cluster the point
keeps its current assignment (ties never move a point). -/
theorem turn_pass_strictly_closer {n k : ℕ} (pts : Fin n → Vec2) (A : Fin n → Fin k)
    (C : Fin k → Vec2) (i : Fin n) :
    (passAssign pts A C i = A i ∨
      pdist (pts i) (C (passAssign pts A C i)) < pdist (pts i) (C (A i))) ∧
    ((∀ j : Fin k, pdist (pts i) (C (A i)) ≤ pdist (pts i) (C j)) →
      passAssign pts A C i = A i) := by
  constructor
  · rcases (bestCluster_spec (pts i) (A i) C).2 with h | h
    · exact Or.inl h
    · exact Or.inr ((pdist_lt_pdist_iff (pts i) _ _).mpr h)
  · intro h
    exact bestCluster_stay (pts i) (A i) C
      (fun j => (pdist_le_pdist_iff (pts i) _ _).mp (h j))

/-- Witness for C3: one point at the origin, a single cluster with center
`(1,1)`; the tie hypothesis is trivial (the only cluster is the current one)
and the point indeed stays. -/
theorem turn_pass_strictly_closer_witness :
    passAssign (fun _ : Fin 1 => ((0 : ℚ), (0 : ℚ))) (fun _ => (0 : Fin 1))
      (fun _ => ((1 : ℚ), (1 : ℚ))) 0 = 0 := by
  refine (turn_pass_strictly_closer (fun _ : Fin 1 => ((0 : ℚ), (0 : ℚ)))
    (fun _ => (0 : Fin 1)) (fun _ => ((1 : ℚ), (1 : ℚ))) 0).2 ?_
  intro j
  exact le_refl _

lemma turnLoop_count_ge_one {n k : ℕ} (pts : Fin n → Vec2) :
    ∀ (fuel : ℕ) (st st2 : KState n k) (m : ℕ),
      turnLoop pts fuel st = some (st2, m) → 1 ≤ m := by
  intro fuel
  induction fuel with
  | zero =>
    intro st st2 m h
    exact absurd h (by rw [show turnLoop pts 0 st = none from rfl]; simp)
  | succ fuel ih =>
    intro st st2 m h
    rw [turnLoop_succ] at h
    by_cases hc : (turnStep pts st).assign = st.assign
    · rw [if_pos hc] at h
      have h2 := Option.some.inj h
      have hm : 1 = m := congrArg Prod.snd h2
      omega
    · rw [if_neg hc] at h
      rcases hrec : turnLoop pts fuel (turnStep pts st) with _ | r
      · rw [hrec] at h
        simp at h
      · rw [hrec] at h
        rcases r with ⟨st3, m3⟩
        have h2 := Option.some.inj h
        have hm : m3 + 1 = m := congrArg Prod.snd h2
        omega

/-- When the loop is entered with centers that are the members' means (as in
the program), the state it returns is a fixpoint: its pass moves no point and
its centers are exactly what recomputation yields. -/
lemma turnLoop_result_fixed {n k : ℕ} (pts : Fin n → Vec2) :
    ∀ (fuel : ℕ) (st st2 : KState n k) (m : ℕ),
      CentersAreMeans pts st.assign st.centers →
      turnLoop pts fuel st = some (st2, m) →
      passAssign pts st2.assign st2.centers = st2.assign ∧
        updateCenters pts st2.assign st2.centers = st2.centers := by
  intro fuel
  induction fuel with
  | zero =>
    intro st st2 m _ h
    exact absurd h (by rw [show turnLoop pts 0 st = none from rfl]; simp)
  | succ fuel ih =>
    intro st st2 m hC h
    rw [turnLoop_succ] at h
    by_cases hc : (turnStep pts st).assign = st.assign
    · rw [if_pos hc] at h
      have h2 := Option.some.inj h
      have hst : st2 = turnStep pts st := (congrArg Prod.fst h2).symm
      rw [turnStep_assign] at hc
      have hcent : (turnStep pts st).centers = st.centers := by
        rw [turnStep_centers, hc]
        exact centered_update_eq pts st.assign st.centers hC
      have hassign : (turnStep pts st).assign = st.assign := by
        rw [turnStep_assign]; exact hc
      constructor
      · rw [hst, hassign, hcent]
        exact hc
      · rw [hst, hassign, hcent]
        exact centered_update_eq pts st.assign st.centers hC
    · rw [if_neg hc] at h
      rcases hrec : turnLoop pts fuel (turnStep pts st) with _ | r
      · rw [hrec] at h
        simp at h
      · rw [hrec] at h
        rcases r with ⟨st3, m3⟩
        have h2 := Option.some.inj h
        have hst : st3 = st2 := congrArg Prod.fst h2
        have hC2 : CentersAreMeans pts (turnStep pts st).assign (turnStep pts st).centers := by
          rw [turnStep_assign, turnStep_centers]
          exact updateCenters_centered pts (passAssign pts st.assign st.centers) st.centers
        have := ih (turnStep pts st) st3 m3 hC2 hrec
        rw [hst] at this
        exact this

/-- Claim C7: on every run that returns, the pass count of `_turn` is at
least 1; and rerunning `_turn` on the state it just converged to (entered,
as in the program, with centers equal to the members' means) again returns
after exactly 1 pass, with that pass reassigning no point and leaving the
state unchanged — the converged state is a fixpoint. -/
theorem turn_loop_fixpoint {n k : ℕ} (pts : Fin n → Vec2) (fuel : ℕ)
    (st st2 : KState n k) (m : ℕ) :
    (turnLoop pts fuel st = some (st2, m) → 1 ≤ m) ∧
    (CentersAreMeans pts st.assign st.centers → turnLoop pts fuel st = some (st2, m) →
      passAssign pts st2.assign st2.centers = st2.assign ∧
      ∀ f : ℕ, turnLoop pts (f + 1) st2 = some (st2, 1)) := by
  constructor
  · exact turnLoop_count_ge_one pts fuel st st2 m
  · intro hC h
    obtain ⟨hfix, hupd⟩ := turnLoop_result_fixed pts fuel st st2 m hC h
    refine ⟨hfix, fun f => ?_⟩
    have hstep : turnStep pts st2 = st2 := by
      unfold turnStep
      rw [hfix, hupd]
    rw [turnLoop_succ, hstep, if_pos rfl]

/-- Witness for C7: a single point at the origin, a single cluster with
center `(0,0)` (the mean of its one member): the loop returns after one pass
and the returned pass count is `1 ≥ 1`. -/
theorem turn_loop_fixpoint_witness :
    turnLoop (fun _ : Fin 1 => ((0 : ℚ), (0 : ℚ))) 1
        (KState.mk (fun _ => (0 : Fin 1)) (fun _ => ((0 : ℚ), (0 : ℚ))))
      = some (KState.mk (fun _ => (0 : Fin 1)) (fun _ => ((0 : ℚ), (0 : ℚ))), 1) ∧
    (1 : ℕ) ≤ 1 := by
  have hA : passAssign (fun _ : Fin 1 => ((0 : ℚ), (0 : ℚ))) (fun _ => (0 : Fin 1))
      (fun _ => ((0 : ℚ), (0 : ℚ))) = (fun _ => (0 : Fin 1)) := by
    funext i
    exact Subsingleton.elim _ _
  have hfib : ∀ j : Fin 1, clusterFiber (fun _ : Fin 1 => (0 : Fin 1)) j = Finset.univ := by
    intro j
    refine Finset.filter_true_of_mem (fun i _ => Subsingleton.elim _ _)
  have hC : CentersAreMeans (fun _ : Fin 1 => ((0 : ℚ), (0 : ℚ))) (fun _ => (0 : Fin 1))
      (fun _ => ((0 : ℚ), (0 : ℚ))) := by
    intro j _
    unfold meanOf
    rw [hfib j]
    norm_num
  have hstep : turnStep (fun _ : Fin 1 => ((0 : ℚ), (0 : ℚ)))
      (KState.mk (fun _ => (0 : Fin 1)) (fun _ => ((0 : ℚ), (0 : ℚ))))
      = KState.mk (fun _ => (0 : Fin 1)) (fun _ => ((0 : ℚ), (0 : ℚ))) := by
    unfold turnStep
    simp only [hA]
    rw [centered_update_eq _ _ _ hC]
  have h0 : turnLoop (fun _ : Fin 1 => ((0 : ℚ), (0 : ℚ))) 1
      (KState.mk (fun _ => (0 : Fin 1)) (fun _ => ((0 : ℚ), (0 : ℚ))))
      = some (KState.mk (fun _ => (0 : Fin 1)) (fun _ => ((0 : ℚ), (0 : ℚ))), 1) := by
    have h1 := turnLoop_succ (fun _ : Fin 1 => ((0 : ℚ), (0 : ℚ))) 0
      (KState.mk (fun _ => (0 : Fin 1)) (fun _ => ((0 : ℚ), (0 : ℚ))))
    simp only [hstep] at h1
    rw [if_pos trivial] at h1
    exact h1
  have h := (turn_loop_fixpoint (fun _ : Fin 1 => ((0 : ℚ), (0 : ℚ))) 1
    (KState.mk (fun _ => (0 : Fin 1)) (fun _ => ((0 : ℚ), (0 : ℚ))))
    (KState.mk (fun _ => (0 : Fin 1)) (fun _ => ((0 : ℚ), (0 : ℚ)))) 1)
  exact ⟨(h.2 hC h0).2 0, h.1 h0⟩

/-- Invariant of the `max` scan: over a strictly increasing candidate list
whose elements all lie after the current best, the scan returns a maximiser,
and among all candidates attaining the maximum it returns the earliest. -/
lemma argmax_foldl_spec {np : ℕ} (counter : Fin (np + 1) → ℕ) :
    ∀ l : List (Fin (np + 1)), l.Pairwise (· < ·) →
      ∀ b : Fin (np + 1), (∀ j ∈ l, b < j) →
        counter b ≤ counter
            (l.foldl (fun best i => if counter best < counter i then i else best) b) ∧
        (∀ j ∈ l, counter j ≤ counter
            (l.foldl (fun best i => if counter best < counter i then i else best) b)) ∧
        (∀ j, (j = b ∨ j ∈ l) →
          counter j = counter
              (l.foldl (fun best i => if counter best < counter i then i else best) b) →
          l.foldl (fun best i => if counter best < counter i then i else best) b ≤ j) := by
  intro l
  induction l with
  | nil =>
    intro _ b _
    refine ⟨le_refl _, by simp, ?_⟩
    intro j hj _
    rcases hj with hj | hj
    · subst hj
      exact le_refl _
    · simp at hj
  | cons x l ih =>
    intro hpair b hb
    have hpl : l.Pairwise (· < ·) := (List.pairwise_cons.mp hpair).2
    have hxl : ∀ j ∈ l, x < j := (List.pairwise_cons.mp hpair).1
    simp only [List.foldl_cons]
    by_cases h : counter b < counter x
    · rw [if_pos h]
      obtain ⟨ih1, ih2, ih3⟩ := ih hpl x hxl
      refine ⟨le_trans (le_of_lt h) ih1, ?_, ?_⟩
      · intro j hj
        rcases List.mem_cons.mp hj with hj | hj
        · rw [hj]; exact ih1
        · exact ih2 j hj
      · intro j hj hje
        rcases hj with hj | hj
        · exfalso
          subst hj
          exact absurd (hje ▸ lt_of_lt_of_le h ih1) (lt_irrefl _)
        · rcases List.mem_cons.mp hj with hj | hj
          · exact ih3 j (Or.inl hj) hje
          · exact ih3 j (Or.inr hj) hje
    · rw [if_neg h]
      obtain ⟨ih1, ih2, ih3⟩ := ih hpl b (fun j hj => hb j (List.mem_cons_of_mem x hj))
      refine ⟨ih1, ?_, ?_⟩
      · intro j hj
        rcases List.mem_cons.mp hj with hj | hj
        · rw [hj]
          exact le_trans (not_lt.mp h) ih1
        · exact ih2 j hj
      · intro j hj hje
        rcases hj with hj | hj
        · exact ih3 j (Or.inl hj) hje
        · rcases List.mem_cons.mp hj with hj | hj
          · subst hj
            have hjb : counter j ≤ counter b := not_lt.mp h
            have hbe : counter b = counter
                (l.foldl (fun best i => if counter best < counter i then i else best) b) :=
              le_antisymm ih1 (hje ▸ hjb)
            have hfb := ih3 b (Or.inl rfl) hbe
            exact le_trans hfb (le_of_lt (hb j (List.mem_cons_self j l)))
          · exact ih3 j (Or.inr hj) hje

/-- Python's `max` over the counter returns the first maximiser in dataset
order: a maximiser, and the least index among points attaining the maximum. -/
lemma argmaxCounter_spec {np : ℕ} (counter : Fin (np + 1) → ℕ) :
    (∀ j, counter j ≤ counter (argmaxCounter counter)) ∧
    (∀ j, counter j = counter (argmaxCounter counter) → argmaxCounter counter ≤ j) := by
  have hsplit : List.finRange (np + 1) = 0 :: (List.finRange np).map Fin.succ :=
    List.finRange_succ np
  have hpair : ((List.finRange np).map Fin.succ).Pairwise (· < (· : Fin (np + 1))) := by
    refine List.Pairwise.map Fin.succ (fun a b hab => ?_) (List.pairwise_lt_finRange np)
    exact Fin.succ_lt_succ_iff.mpr hab
  have hpos : ∀ j ∈ (List.finRange np).map Fin.succ, (0 : Fin (np + 1)) < j := by
    intro j hj
    obtain ⟨i, _, rfl⟩ := List.mem_map.mp hj
    exact Fin.succ_pos i
  have hfold : argmaxCounter counter
      = ((List.finRange np).map Fin.succ).foldl
          (fun best i => if counter best < counter i then i else best) 0 := by
    unfold argmaxCounter
    rw [hsplit]
    simp only [List.foldl_cons]
    rw [if_neg (lt_irrefl _)]
  have hmem : ∀ j : Fin (np + 1), j = 0 ∨ j ∈ (List.finRange np).map Fin.succ := by
    intro j
    have : j ∈ List.finRange (np + 1) := List.mem_finRange j
    rw [hsplit] at this
    exact List.mem_cons.mp this
  obtain ⟨h1, h2, h3⟩ := argmax_foldl_spec counter ((List.finRange np).map Fin.succ) hpair 0 hpos
  constructor
  · intro j
    rw [hfold]
    rcases hmem j with hj | hj
    · rw [hj]; exact h1
    · exact h2 j hj
  · intro j hje
    rw [hfold]
    rw [hfold] at hje
    exact h3 j (hmem j) hje

lemma zero_foldl_spec {np : ℕ} :
    ∀ (l : List (Fin (np + 1))) (c : Fin (np + 1) → ℕ) (r : Fin (np + 1)),
      (l.foldl (fun c q => fun r => if r = q then 0 else c r) c) r
        = if r ∈ l then 0 else c r := by
  intro l
  induction l with
  | nil => intro c r; simp
  | cons x l ih =>
    intro c r
    simp only [List.foldl_cons, ih]
    by_cases hr : r ∈ l
    · rw [if_pos hr, if_pos (List.mem_cons_of_mem x hr)]
    · rw [if_neg hr]
      by_cases hrx : r = x
      · rw [if_pos hrx, if_pos (List.mem_cons.mpr (Or.inl hrx))]
      · rw [if_neg hrx, if_neg (by simp [hrx, hr])]

/-- The zeroing loop zeroes exactly the members of the selected point's
current cluster (the selected point included) and touches nothing else. -/
lemma zeroCluster_spec {np kp : ℕ} (A : Fin (np + 1) → Fin (kp + 1))
    (counter : Fin (np + 1) → ℕ) (i0 r : Fin (np + 1)) :
    zeroCluster A counter i0 r = if A r = A i0 then 0 else counter r := by
  unfold zeroCluster
  rw [zero_foldl_spec]
  by_cases h : A r = A i0
  · rw [if_pos ((mem_clusterList A (A i0) r).mpr h), if_pos h]
  · rw [if_neg (fun hm => h ((mem_clusterList A (A i0) r).mp hm)), if_neg h]

/-- Claim C10: in each selection round of the density-guided reseeding, when
several points share the maximal counter value the selected point is the
first such point in the counter's insertion order — dataset order (Python
dicts iterate in insertion order and the counter's keys are inserted over
`self._points` in `__init__` and never removed); the selected point's own
coordinates become the next center; and the counter of every point of the
selected point's current cluster, the selected point itself included, is
zeroed before the next round.  All the rounds are plain functions of the
pre-reseeding state, so the selection is deterministic. -/
theorem reseed_first_max_selection {np kp : ℕ} (pts : Fin (np + 1) → Vec2)
    (A : Fin (np + 1) → Fin (kp + 1)) :
    (∀ counter : Fin (np + 1) → ℕ,
      (∀ j, counter j ≤ counter (argmaxCounter counter)) ∧
      (∀ j, counter j = counter (argmaxCounter counter) → argmaxCounter counter ≤ j)) ∧
    (∀ (counter : Fin (np + 1) → ℕ) (r : Fin (np + 1)),
      zeroCluster A counter (argmaxCounter counter) r
        = if A r = A (argmaxCounter counter) then 0 else counter r) ∧
    (∀ (rounds : ℕ) (counter : Fin (np + 1) → ℕ),
      selectRounds pts A (rounds + 1) counter
        = pts (argmaxCounter counter) ::
            selectRounds pts A rounds (zeroCluster A counter (argmaxCounter counter))) := by
  refine ⟨fun counter => argmaxCounter_spec counter,
    fun counter r => zeroCluster_spec A counter (argmaxCounter counter) r,
    fun rounds counter => rfl⟩

/-- Witness for C10 on the counter `[2, 4, 4]` (dataset order): the counter's
maximum `4` is attained at indices 1 and 2, and the selection picks index 1,
the first of them, which is `≤ 2`; and after the round the selected point's
own counter entry is zeroed. -/
theorem reseed_first_max_selection_witness :
    argmaxCounter ![2, 4, 4] ≤ 2 ∧
    (∀ j : Fin 3, (![2, 4, 4] : Fin 3 → ℕ) j ≤ ![2, 4, 4] (argmaxCounter ![2, 4, 4])) ∧
    zeroCluster (fun _ : Fin 3 => (0 : Fin 1)) ![2, 4, 4] (argmaxCounter ![2, 4, 4])
        (argmaxCounter ![2, 4, 4]) = 0 := by
  have h := reseed_first_max_selection (fun _ : Fin 3 => ((0 : ℚ), (0 : ℚ)))
    (fun _ : Fin 3 => (0 : Fin 1))
  refine ⟨(h.1 ![2, 4, 4]).2 2 (by decide), (h.1 ![2, 4, 4]).1, ?_⟩
  rw [h.2.1 ![2, 4, 4] (argmaxCounter ![2, 4, 4]), if_pos rfl]

lemma fin2_funext {β : Type} {f g : Fin 2 → β} (h0 : f 0 = g 0) (h1 : f 1 = g 1) : f = g := by
  funext j
  fin_cases j
  · exact h0
  · exact h1

/-- Claim C8 amended: when `run` returns, it has performed all the restarts
(`seeds ≠ []`, one accumulated pass total), invoked the reseeding phase
exactly once (one `optimizedRun` result feeds the report), and reported
`k`, the accumulated pass count divided by `precision` — truncated to an
integer by the `%d` formatting, i.e. the floor of the arithmetic mean, not
the exact mean — and the final reseeded turn's pass count. -/
theorem run_reports_truncated_mean {np kp : ℕ} (pts : Fin (np + 1) → Vec2)
    (seeds : List (Fin (kp + 1) → Fin (np + 1))) (t : ℕ × ℕ × ℕ)
    (h : runKmean pts seeds = some t) :
    ∃ (total : ℕ) (counter : Fin (np + 1) → ℕ) (st stF : KState (np + 1) (kp + 1)) (opt : ℕ),
      restartsRun pts seeds (fun _ => 0) = some (total, counter, st) ∧
      optimizedRun pts counter st = some (stF, opt) ∧
      t = (kp + 1, total / seeds.length, opt) ∧
      seeds ≠ [] ∧
      total / seeds.length * seeds.length ≤ total ∧
      total < (total / seeds.length + 1) * seeds.length := by
  unfold runKmean at h
  rcases hres : restartsRun pts seeds (fun _ => 0) with _ | ⟨total, counter, st⟩
  · exfalso
    rw [hres] at h
    simp at h
  · rw [hres] at h
    simp only [Option.some_bind] at h
    rcases hopt : optimizedRun pts counter st with _ | ⟨stF, opt⟩
    · exfalso
      rw [hopt] at h
      simp at h
    · rw [hopt] at h
      simp only [Option.map_some'] at h
      have ht : (kp + 1, total / seeds.length, opt) = t := Option.some.inj h
      have hne : seeds ≠ [] := by
        intro hs
        rw [hs] at hres
        exact Option.noConfusion hres
      have hlen : 0 < seeds.length := List.length_pos.mpr hne
      refine ⟨total, counter, st, stF, opt, rfl, hopt, ht.symm, hne,
        Nat.div_mul_le_self _ _, ?_⟩
      have hdm := Nat.div_add_mod total seeds.length
      have hml := Nat.mod_lt total hlen
      nlinarith [hdm, hml]

lemma wit_best_eval (p : Vec2) (cur : Fin 2) (C : Fin 2 → Vec2) :
    bestCluster p cur C
      = (if sqDist p (C 1)
            < sqDist p (C (if sqDist p (C 0) < sqDist p (C cur) then 0 else cur))
         then 1 else if sqDist p (C 0) < sqDist p (C cur) then 0 else cur) := by
  unfold bestCluster
  rw [show List.finRange 2 = [0, 1] from by decide]
  simp only [List.foldl_cons, List.foldl_nil]

lemma wit_assign_eval (p : Vec2) (C : Fin 2 → Vec2) :
    assignClosest p C = (if sqDist p (C 1) < sqDist p (C 0) then 1 else 0) := by
  unfold assignClosest
  rw [show (List.finRange 2).drop 1 = [1] from by decide]
  simp only [List.foldl_cons, List.foldl_nil]

lemma wit_init_A : initRestart witPts witSeedA = KState.mk (fun _ => 0) witCb := by
  unfold initRestart seededState
  have hc0 : (fun j : Fin 2 => witPts (witSeedA j)) = (fun _ : Fin 2 => ((0 : ℚ), (0 : ℚ))) := by
    refine fin2_funext ?_ ?_ <;> simp [witPts, witSeedA]
  rw [hc0]
  have hA : (fun i : Fin 2 => assignClosest (witPts i) (fun _ => ((0 : ℚ), (0 : ℚ))))
      = (fun _ : Fin 2 => (0 : Fin 2)) := by
    refine fin2_funext ?_ ?_ <;>
      · rw [wit_assign_eval]
        norm_num
  rw [hA]
  have hupd : updateCenters witPts (fun _ : Fin 2 => (0 : Fin 2)) (fun _ => ((0 : ℚ), (0 : ℚ)))
      = witCb := by
    refine fin2_funext ?_ ?_
    · show updateCenter ((clusterList (fun _ : Fin 2 => (0 : Fin 2)) 0).map witPts)
          ((0 : ℚ), (0 : ℚ)) = witCb 0
      rw [show clusterList (fun _ : Fin 2 => (0 : Fin 2)) (0 : Fin 2) = [0, 1] from by decide]
      norm_num [updateCenter, sumXY, List.foldl_cons, List.foldl_nil, witPts, witCb]
    · show updateCenter ((clusterList (fun _ : Fin 2 => (0 : Fin 2)) 1).map witPts)
          ((0 : ℚ), (0 : ℚ)) = witCb 1
      rw [show clusterList (fun _ : Fin 2 => (0 : Fin 2)) (1 : Fin 2) = [] from by decide]
      norm_num [updateCenter, witCb]
  rw [hupd]

lemma turnLoop_one {n k : ℕ} (pts : Fin n → Vec2) (st st2 : KState n k) (f : ℕ)
    (hstep : turnStep pts st = st2) (heq : st2.assign = st.assign) :
    turnLoop pts (f + 1) st = some (st2, 1) := by
  rw [turnLoop_succ]
  rw [hstep, if_pos heq]

lemma turnLoop_more {n k : ℕ} (pts : Fin n → Vec2) (st st2 st3 : KState n k) (f m : ℕ)
    (hstep : turnStep pts st = st2) (hne : st2.assign ≠ st.assign)
    (hrec : turnLoop pts f st2 = some (st3, m)) :
    turnLoop pts (f + 1) st = some (st3, m + 1) := by
  rw [turnLoop_succ, hstep, if_neg hne, hrec]

lemma wit_stepA : turnStep witPts (KState.mk (fun _ => 0) witCb) = KState.mk witA2 witC2 := by
  unfold turnStep
  have hpass : passAssign witPts (fun _ : Fin 2 => (0 : Fin 2)) witCb = witA2 := by
    refine fin2_funext ?_ ?_
    · show bestCluster (witPts 0) 0 witCb = witA2 0
      rw [wit_best_eval]
      norm_num [sqDist, witPts, witCb, witA2]
    · show bestCluster (witPts 1) 0 witCb = witA2 1
      rw [wit_best_eval]
      norm_num [sqDist, witPts, witCb, witA2]
  have hupd : updateCenters witPts witA2 witCb = witC2 := by
    refine fin2_funext ?_ ?_
    · show updateCenter ((clusterList witA2 0).map witPts) (witCb 0) = witC2 0
      rw [show clusterList witA2 (0 : Fin 2) = [1] from by decide]
      norm_num [updateCenter, sumXY, List.foldl_cons, List.foldl_nil, witPts, witCb, witC2]
    · show updateCenter ((clusterList witA2 1).map witPts) (witCb 1) = witC2 1
      rw [show clusterList witA2 (1 : Fin 2) = [0] from by decide]
      norm_num [updateCenter, sumXY, List.foldl_cons, List.foldl_nil, witPts, witCb, witC2]
  dsimp only
  rw [hpass, hupd]

lemma wit_stepB : turnStep witPts (KState.mk witA2 witC2) = KState.mk witA2 witC2 := by
  unfold turnStep
  have hpass : passAssign witPts witA2 witC2 = witA2 := by
    refine fin2_funext ?_ ?_
    · show bestCluster (witPts 0) (witA2 0) witC2 = witA2 0
      rw [wit_best_eval]
      norm_num [sqDist, witPts, witC2, witA2]
    · show bestCluster (witPts 1) (witA2 1) witC2 = witA2 1
      rw [wit_best_eval]
      norm_num [sqDist, witPts, witC2, witA2]
  have hupd : updateCenters witPts witA2 witC2 = witC2 := by
    refine fin2_funext ?_ ?_
    · show updateCenter ((clusterList witA2 0).map witPts) (witC2 0) = witC2 0
      rw [show clusterList witA2 (0 : Fin 2) = [1] from by decide]
      norm_num [updateCenter, sumXY, List.foldl_cons, List.foldl_nil, witPts, witC2]
    · show updateCenter ((clusterList witA2 1).map witPts) (witC2 1) = witC2 1
      rw [show clusterList witA2 (1 : Fin 2) = [0] from by decide]
      norm_num [updateCenter, sumXY, List.foldl_cons, List.foldl_nil, witPts, witC2]
  dsimp only
  rw [hpass, hupd]

lemma wit_turnA :
    turnLoop witPts 5 (KState.mk (fun _ => 0) witCb) = some (KState.mk witA2 witC2, 2) := by
  have hne : (KState.mk witA2 witC2).assign ≠ (KState.mk (fun _ : Fin 2 => (0 : Fin 2)) witCb).assign := by
    intro h
    have h0 := congrFun h 0
    simp [witA2] at h0
  have h1 : turnLoop witPts 4 (KState.mk witA2 witC2) = some (KState.mk witA2 witC2, 1) :=
    turnLoop_one witPts _ _ 3 wit_stepB rfl
  exact turnLoop_more witPts _ _ _ 4 1 wit_stepA hne h1

lemma wit_seedCD : seededState witPts witCD = KState.mk witAB witCD := by
  unfold seededState
  have hA : (fun i : Fin 2 => assignClosest (witPts i) witCD) = witAB := by
    refine fin2_funext ?_ ?_
    · show assignClosest (witPts 0) witCD = witAB 0
      rw [wit_assign_eval]
      norm_num [sqDist, witPts, witCD, witAB]
    · show assignClosest (witPts 1) witCD = witAB 1
      rw [wit_assign_eval]
      norm_num [sqDist, witPts, witCD, witAB]
  rw [hA]
  have hupd : updateCenters witPts witAB witCD = witCD := by
    refine fin2_funext ?_ ?_
    · show updateCenter ((clusterList witAB 0).map witPts) (witCD 0) = witCD 0
      rw [show clusterList witAB (0 : Fin 2) = [0] from by decide]
      norm_num [updateCenter, sumXY, List.foldl_cons, List.foldl_nil, witPts, witCD]
    · show updateCenter ((clusterList witAB 1).map witPts) (witCD 1) = witCD 1
      rw [show clusterList witAB (1 : Fin 2) = [1] from by decide]
      norm_num [updateCenter, sumXY, List.foldl_cons, List.foldl_nil, witPts, witCD]
  rw [hupd]

lemma wit_init_B : initRestart witPts witSeedB = KState.mk witAB witCD := by
  unfold initRestart
  rw [show (fun j : Fin 2 => witPts (witSeedB j)) = witCD from
    fin2_funext (by simp [witPts, witSeedB, witCD]) (by simp [witPts, witSeedB, witCD])]
  exact wit_seedCD

lemma wit_stepD : turnStep witPts (KState.mk witAB witCD) = KState.mk witAB witCD := by
  unfold turnStep
  have hpass : passAssign witPts witAB witCD = witAB := by
    refine fin2_funext ?_ ?_
    · show bestCluster (witPts 0) (witAB 0) witCD = witAB 0
      rw [wit_best_eval]
      norm_num [sqDist, witPts, witCD, witAB]
    · show bestCluster (witPts 1) (witAB 1) witCD = witAB 1
      rw [wit_best_eval]
      norm_num [sqDist, witPts, witCD, witAB]
  have hupd : updateCenters witPts witAB witCD = witCD := by
    refine fin2_funext ?_ ?_
    · show updateCenter ((clusterList witAB 0).map witPts) (witCD 0) = witCD 0
      rw [show clusterList witAB (0 : Fin 2) = [0] from by decide]
      norm_num [updateCenter, sumXY, List.foldl_cons, List.foldl_nil, witPts, witCD]
    · show updateCenter ((clusterList witAB 1).map witPts) (witCD 1) = witCD 1
      rw [show clusterList witAB (1 : Fin 2) = [1] from by decide]
      norm_num [updateCenter, sumXY, List.foldl_cons, List.foldl_nil, witPts, witCD]
  dsimp only
  rw [hpass, hupd]

lemma wit_turnB :
    turnLoop witPts 5 (KState.mk witAB witCD) = some (KState.mk witAB witCD, 1) :=
  turnLoop_one witPts _ _ 4 wit_stepD rfl

lemma wit_counterA : countNeighbours witA2 (fun _ => 0) = (fun _ : Fin 2 => 1) :=
  fin2_funext (by decide) (by decide)

lemma wit_counterB : countNeighbours witAB (fun _ : Fin 2 => 1) = (fun _ : Fin 2 => 2) :=
  fin2_funext (by decide) (by decide)

lemma restartsRun_cons {np kp : ℕ} (pts : Fin (np + 1) → Vec2)
    (s : Fin (kp + 1) → Fin (np + 1)) (rest : List (Fin (kp + 1) → Fin (np + 1)))
    (counter : Fin (np + 1) → ℕ) :
    restartsRun pts (s :: rest) counter
      = (turnLoop pts (turnFuel np kp) (initRestart pts s)).bind (fun r =>
          if rest.isEmpty then some (r.2, countNeighbours r.1.assign counter, r.1)
          else (restartsRun pts rest (countNeighbours r.1.assign counter)).map
            (fun t => (r.2 + t.1, t.2.1, t.2.2))) := by
  rw [restartsRun]

lemma wit_restartB :
    restartsRun witPts [witSeedB] (fun _ : Fin 2 => 1)
      = some (1, (fun _ : Fin 2 => 2), KState.mk witAB witCD) := by
  rw [restartsRun_cons]
  rw [show turnFuel 1 1 = 5 from by norm_num [turnFuel]]
  rw [wit_init_B, wit_turnB]
  simp only [Option.some_bind, List.isEmpty_nil, if_true]
  rw [wit_counterB]

lemma wit_restarts :
    restartsRun witPts [witSeedA, witSeedB] (fun _ => 0)
      = some (3, (fun _ : Fin 2 => 2), KState.mk witAB witCD) := by
  rw [restartsRun_cons]
  rw [show turnFuel 1 1 = 5 from by norm_num [turnFuel]]
  rw [wit_init_A, wit_turnA]
  simp only [Option.some_bind, List.isEmpty_cons, Bool.false_eq_true, if_false]
  rw [wit_counterA, wit_restartB]
  simp only [Option.map_some']

lemma wit_select :
    selectRounds witPts witAB 2 (fun _ : Fin 2 => 2)
      = [((0 : ℚ), (0 : ℚ)), ((2 : ℚ), (0 : ℚ))] := by
  show witPts (argmaxCounter (fun _ : Fin 2 => 2)) ::
      witPts (argmaxCounter (zeroCluster witAB (fun _ : Fin 2 => 2)
        (argmaxCounter (fun _ : Fin 2 => 2)))) :: [] = _
  rw [show argmaxCounter (fun _ : Fin 2 => 2) = 0 from by decide]
  rw [show argmaxCounter (zeroCluster witAB (fun _ : Fin 2 => 2) 0) = 1 from by decide]
  simp [witPts]

lemma wit_opt :
    optimizedRun witPts (fun _ : Fin 2 => 2) (KState.mk witAB witCD)
      = some (KState.mk witAB witCD, 1) := by
  have hC0f : (fun j : Fin 2 => (selectRounds witPts witAB 2
      (fun _ : Fin 2 => 2)).getD (j : ℕ) ((0 : ℚ), (0 : ℚ))) = witCD := by
    funext j
    rw [wit_select]
    fin_cases j <;> simp [witCD]
  show turnLoop witPts (turnFuel 1 1) (seededState witPts
    (fun j : Fin 2 => (selectRounds witPts witAB 2
      (fun _ : Fin 2 => 2)).getD (j : ℕ) ((0 : ℚ), (0 : ℚ)))) = _
  rw [hC0f, wit_seedCD]
  rw [show turnFuel 1 1 = 5 from by norm_num [turnFuel]]
  exact wit_turnB

lemma wit_run : runKmean witPts [witSeedA, witSeedB] = some (2, 1, 1) := by
  unfold runKmean
  rw [wit_restarts]
  simp only [Option.some_bind]
  rw [wit_opt]
  simp only [Option.map_some']
  rfl

/-- Claim C8 counterexample: on the two-point dataset `(0,0), (2,0)` with
`k = 2` and `precision = 2` restarts (seeds: both centers on point 0, then
centers on points 0 and 1) the restarts accumulate 3 turn passes, yet the
driver reports the middle value `1` — the `%d`-truncated `3/2` — which is
not the exact arithmetic mean `3/2` of the per-restart pass counts. -/
theorem run_mean_not_exact :
    runKmean witPts [witSeedA, witSeedB] = some (2, 1, 1) ∧
    (restartsRun witPts [witSeedA, witSeedB] (fun _ => 0)).map (fun r => r.1) = some 3 ∧
    ((1 : ℚ) ≠ 3 / 2) := by
  refine ⟨wit_run, ?_, by norm_num⟩
  rw [wit_restarts]
  rfl

/-- Witness for the amended C8 theorem on the concrete run above: all the
reported components are as the theorem describes, with the middle one the
floor of the mean (`1 · 2 ≤ 3 < (1 + 1) · 2`). -/
theorem run_reports_truncated_mean_witness :
    ∃ (total : ℕ) (counter : Fin 2 → ℕ) (st stF : KState 2 2) (opt : ℕ),
      restartsRun witPts [witSeedA, witSeedB] (fun _ => 0) = some (total, counter, st) ∧
      optimizedRun witPts counter st = some (stF, opt) ∧
      ((2 : ℕ), (1 : ℕ), (1 : ℕ)) = (2, total / 2, opt) ∧
      ([witSeedA, witSeedB] : List (Fin 2 → Fin 2)) ≠ [] ∧
      total / 2 * 2 ≤ total ∧ total < (total / 2 + 1) * 2 :=
  run_reports_truncated_mean witPts [witSeedA, witSeedB] (2, 1, 1) wit_run
